import Mathlib

/-!
Verification of the loadshape-synthesis and measurement-aggregation pipeline of an
OpenDSS-based synthetic-dataset generator (`loadshape_factory.py`,
`loadshape_prototype.py`, `dss_loadshape.py`, `data_factory.py`, `dss_load.py`,
`dss_phase.py`, `dss_name.py`, `dss_monitor.py`).

Embedding conventions:
* Python `str` values that the code joins/splits are modelled as `List Char`.
* numpy float arrays are modelled as `List ℚ` (exact rational arithmetic standing in
  for IEEE doubles; all the algorithms verified here are exact piecewise-rational).
* Calls that can raise a Python exception are modelled with `Except`; a `.error`
  value means the call raises and produces no result.
* `numpy.random.Generator` is modelled as a deterministic stream of raw words: the
  function `bitStream : Nat → Nat → Nat` (seed ↦ draw index ↦ word) abstracts the
  PCG64 bit generator, and bounded draws reduce the raw word modulo the bound.
-/

namespace ArimaErcot

/-- Python `str`, modelled as a list of characters. -/
abbrev Str := List Char

/-! ## Model of `numpy.random.Generator` -/

/-- State of a `numpy.random.Generator`: the raw word stream fixed at seeding time
together with the current position in that stream. -/
structure Generator where
  raw : Nat → Nat
  pos : Nat

/-- Model of `numpy.random.default_rng(seed=seed)`: a fresh generator whose raw
stream is a deterministic function of the seed. -/
def default_rng (bitStream : Nat → Nat → Nat) (seed : Nat) : Generator :=
  { raw := bitStream seed, pos := 0 }

/-- Model of `rng.integers(high)` (equivalently `rng.integers(low=0, high=high)`):
a draw in `[0, high)` obtained from the next raw word, advancing the stream. -/
def Generator.integers (rng : Generator) (high : Nat) : Nat × Generator :=
  (rng.raw rng.pos % high, { raw := rng.raw, pos := rng.pos + 1 })

/-! ## `dss_phase.py`, `dss_name.py`, `dss_load.py` -/

/-- `dss_phase.Phase`: the seven phase-connection variants. -/
inductive Phase
  | A | B | C | AB | AC | BC | ABC
deriving DecidableEq

/-- `dss_load._meter_counts`: meters per phase configuration. -/
def meter_counts : Phase → Nat
  | .A => 1
  | .B => 1
  | .C => 1
  | .AB => 2
  | .AC => 2
  | .BC => 2
  | .ABC => 3

/-- `dss_name.Name`: an OpenDSS object name, split into class and element. -/
structure Name where
  class_ : Str
  element : Str
deriving DecidableEq

/-- `dss_name.Name.object`: the full name `f"{class_}.{element}"`. -/
def Name.object (n : Name) : Str := n.class_ ++ '.' :: n.element

/-- `dss_load.Load`, restricted to the attributes the verified pipeline reads:
its OpenDSS name and its phase configuration. -/
structure Load where
  name : Name
  phase : Phase
deriving DecidableEq

/-- `dss_load.Load.meter_count`, set in `Load.__init__` as
`self.meter_count = _meter_counts[self.phase]`. -/
def Load.meter_count (l : Load) : Nat := meter_counts l.phase

/-! ## Random State Allocator (`loadshape_factory.py` line 51) -/

/-- `np.iinfo(np.int32).max`. -/
def int32_max : Nat := 2147483647

/-- The list comprehension
`[rng.integers(np.iinfo(np.int32).max) for _ in range(len(loads))]`:
`n` successive bounded draws from `rng`, returned with the advanced generator. -/
def make_random_states : Generator → Nat → List Nat × Generator
  | rng, 0 => ([], rng)
  | rng, n + 1 =>
    let p := rng.integers int32_max
    let rest := make_random_states p.2 n
    (p.1 :: rest.1, rest.2)

/-- The random states allocated by `make_ercot_iqr_random_loadshapes` for `loads`,
with the generator freshly seeded from the master seed (as in `run.py`, which
passes `np.random.default_rng(seed=parameters.random_state)`). -/
def allocate_random_states (bitStream : Nat → Nat → Nat) (seed : Nat)
    (loads : List Load) : List Nat :=
  (make_random_states (default_rng bitStream seed) loads.length).1

theorem make_random_states_length (rng : Generator) (n : Nat) :
    (make_random_states rng n).1.length = n := by
  induction n generalizing rng with
  | zero => rfl
  | succ n ih => simp [make_random_states, ih]

theorem make_random_states_bound (rng : Generator) (n : Nat) :
    ∀ x ∈ (make_random_states rng n).1, x < int32_max := by
  induction n generalizing rng with
  | zero => intro x hx; simp [make_random_states] at hx
  | succ n ih =>
    intro x hx
    simp only [make_random_states, List.mem_cons] at hx
    rcases hx with hx | hx
    · subst hx
      exact Nat.mod_lt _ (by norm_num [int32_max])
    · exact ih _ x hx

/-- C1: Seed allocation is deterministic and depends only on the master seed and the
number of entities: for every master seed and ordered entity list the allocator
returns exactly one non-negative integer per entity, each representable in 32 bits
(in fact below `2^31 - 1`), and two runs with the same master seed and the same
entity count produce identical seed sequences. -/
theorem random_state_allocation_deterministic
    (bitStream : Nat → Nat → Nat) (seed : Nat) (loads1 loads2 : List Load)
    (h : loads1.length = loads2.length) :
    allocate_random_states bitStream seed loads1 =
      allocate_random_states bitStream seed loads2 ∧
    (allocate_random_states bitStream seed loads1).length = loads1.length ∧
    ∀ x ∈ allocate_random_states bitStream seed loads1, x < 2 ^ 32 := by
  refine ⟨by unfold allocate_random_states; rw [h], make_random_states_length _ _, ?_⟩
  intro x hx
  have hb := make_random_states_bound (default_rng bitStream seed) loads1.length x hx
  calc x < int32_max := hb
    _ < 2 ^ 32 := by norm_num [int32_max]

/-- Witness for C1 at a concrete bit stream, master seed 42 and two two-entity lists. -/
theorem random_state_allocation_deterministic_witness :
    allocate_random_states (fun s i => s * 31 + i) 42
        [⟨⟨"load".toList, "a".toList⟩, .A⟩, ⟨⟨"load".toList, "b".toList⟩, .ABC⟩] =
      allocate_random_states (fun s i => s * 31 + i) 42
        [⟨⟨"load".toList, "c".toList⟩, .BC⟩, ⟨⟨"load".toList, "d".toList⟩, .B⟩] ∧
    (allocate_random_states (fun s i => s * 31 + i) 42
        [⟨⟨"load".toList, "a".toList⟩, .A⟩, ⟨⟨"load".toList, "b".toList⟩, .ABC⟩]).length =
      ([⟨⟨"load".toList, "a".toList⟩, .A⟩,
        ⟨⟨"load".toList, "b".toList⟩, .ABC⟩] : List Load).length ∧
    ∀ x ∈ allocate_random_states (fun s i => s * 31 + i) 42
        [⟨⟨"load".toList, "a".toList⟩, .A⟩, ⟨⟨"load".toList, "b".toList⟩, .ABC⟩],
      x < 2 ^ 32 :=
  random_state_allocation_deterministic (fun s i => s * 31 + i) 42 _ _ (by decide)

/-! ## Profile pools and phase-to-profile selection
(`loadshape_factory.py` lines 54-72, `loadshape_prototype.py` lines 102-105) -/

/-- `single_wye` pool of `make_ercot_iqr_random_loadshapes`. -/
def single_wye : List Str :=
  ["BUSLOLF_SCENT".toList, "BUSLOPV_SCENT".toList, "BUSLOWD_SCENT".toList,
   "BUSLODG_SCENT".toList, "RESLOWR_SCENT".toList, "RESHIWR_SCENT".toList,
   "RESLOPV_SCENT".toList, "RESHIPV_SCENT".toList, "RESLOWD_SCENT".toList,
   "RESHIWD_SCENT".toList, "RESLODG_SCENT".toList, "RESHIDG_SCENT".toList]

/-- `single_delta` pool of `make_ercot_iqr_random_loadshapes`. -/
def single_delta : List Str :=
  ["BUSMEDLF_SCENT".toList, "BUSMEDPV_SCENT".toList, "BUSMEDWD_SCENT".toList,
   "BUSMEDDG_SCENT".toList]

/-- `triple` pool of `make_ercot_iqr_random_loadshapes`. -/
def triple : List Str :=
  ["BUSHILF_SCENT".toList, "BUSHIPV_SCENT".toList, "BUSHIWD_SCENT".toList,
   "BUSHIDG_SCENT".toList]

/-- `phase_profile_mapping` dictionary of `make_ercot_iqr_random_loadshapes`. -/
def phase_profile_mapping : Phase → List Str
  | .A => single_wye
  | .B => single_wye
  | .C => single_wye
  | .AB => single_delta
  | .AC => single_delta
  | .BC => single_delta
  | .ABC => triple

/-- `IqrRandomLoadShapePrototype.clone` lines 102-105: look up the pool for the
load's phase, seed a fresh generator from the load's random state, draw a uniform
index below the pool size, and read the profile name at that index.  `none` models
the `IndexError`/`ValueError` cases (empty pool) that cannot arise for the pools
above. -/
def select_profile_name (bitStream : Nat → Nat → Nat)
    (mapping : Phase → List Str) (load : Load) (random_state : Nat) : Option Str :=
  let profile_names := mapping load.phase
  let rng := default_rng bitStream random_state
  let p := rng.integers profile_names.length
  profile_names.get? p.1

/-- C5: the three profile pools are pairwise disjoint, and for every three-phase
load (phase ABC) and every seed the selected profile name is drawn by an index in
`[0, pool size)` from the three-phase pool only: it is a member of `triple` and of
neither `single_wye` nor `single_delta`. -/
theorem three_phase_pool_membership
    (bitStream : Nat → Nat → Nat) (load : Load) (random_state : Nat)
    (h : load.phase = .ABC) :
    (∀ s ∈ single_wye, s ∉ single_delta ∧ s ∉ triple) ∧
    (∀ s ∈ single_delta, s ∉ triple) ∧
    ∃ p, select_profile_name bitStream phase_profile_mapping load random_state = some p ∧
      p ∈ triple ∧ p ∉ single_wye ∧ p ∉ single_delta := by
  refine ⟨by decide, by decide, ?_⟩
  have hidx : (default_rng bitStream random_state).raw 0 % triple.length < triple.length := by
    exact Nat.mod_lt _ (by decide)
  have hp := List.get?_eq_get (l := triple) hidx
  have hall : ∀ q ∈ triple, q ∉ single_wye ∧ q ∉ single_delta := by decide
  refine ⟨triple.get ⟨_, hidx⟩, ?_, List.get_mem _ _ hidx,
    (hall _ (List.get_mem _ _ hidx)).1, (hall _ (List.get_mem _ _ hidx)).2⟩
  simp only [select_profile_name, h, phase_profile_mapping, Generator.integers,
    default_rng]
  exact hp

/-- Witness for C5 at a concrete bit stream, load and seed. -/
theorem three_phase_pool_membership_witness :
    (∀ s ∈ single_wye, s ∉ single_delta ∧ s ∉ triple) ∧
    (∀ s ∈ single_delta, s ∉ triple) ∧
    ∃ p, select_profile_name (fun s i => s + 7 * i) phase_profile_mapping
          ⟨⟨"load".toList, "x".toList⟩, .ABC⟩ 1234 = some p ∧
      p ∈ triple ∧ p ∉ single_wye ∧ p ∉ single_delta :=
  three_phase_pool_membership (fun s i => s + 7 * i)
    ⟨⟨"load".toList, "x".toList⟩, .ABC⟩ 1234 rfl

/-! ## Numeric primitives for `dss_loadshape.LoadShape.__init__` -/

/-- Floor of a rational, computed as Euclidean division of numerator by the
(positive) denominator.  Executable stand-in for `Int.floor` on `ℚ`. -/
def qfloor (q : ℚ) : ℤ := Int.ediv q.num q.den

/-- Ceiling of a rational, via `qfloor`. -/
def qceil (q : ℚ) : ℤ := -qfloor (-q)

theorem qfloor_eq_floor (q : ℚ) : qfloor q = ⌊q⌋ := by
  rw [Rat.floor_def]
  rfl

theorem qfloor_natCast (n : ℕ) : qfloor (n : ℚ) = n := by
  rw [qfloor_eq_floor]
  exact_mod_cast Int.floor_natCast n

/-- `numpy.ndarray.min()` on a one-dimensional array: `none` models the
`ValueError` raised by a reduction over a zero-size array. -/
def np_min : List ℚ → Option ℚ
  | [] => none
  | x :: xs => some (xs.foldl min x)

/-- `numpy.ndarray.max()` on a one-dimensional array. -/
def np_max : List ℚ → Option ℚ
  | [] => none
  | x :: xs => some (xs.foldl max x)

theorem foldl_min_le (xs : List ℚ) (a : ℚ) : xs.foldl min a ≤ a := by
  induction xs generalizing a with
  | nil => exact le_refl a
  | cons y ys ih => exact le_trans (ih (min a y)) (min_le_left a y)

theorem foldl_min_le_mem (xs : List ℚ) (a x : ℚ) (hx : x ∈ xs) : xs.foldl min a ≤ x := by
  induction xs generalizing a with
  | nil => cases hx
  | cons y ys ih =>
    rcases List.mem_cons.mp hx with h | h
    · subst h
      exact le_trans (foldl_min_le ys (min a x)) (min_le_right a x)
    · exact ih (min a y) h

theorem le_foldl_max (xs : List ℚ) (a : ℚ) : a ≤ xs.foldl max a := by
  induction xs generalizing a with
  | nil => exact le_refl a
  | cons y ys ih => exact le_trans (le_max_left a y) (ih (max a y))

theorem mem_le_foldl_max (xs : List ℚ) (a x : ℚ) (hx : x ∈ xs) : x ≤ xs.foldl max a := by
  induction xs generalizing a with
  | nil => cases hx
  | cons y ys ih =>
    rcases List.mem_cons.mp hx with h | h
    · subst h
      exact le_trans (le_max_right a x) (le_foldl_max ys (max a x))
    · exact ih (max a y) h

theorem foldl_min_mem (xs : List ℚ) (a : ℚ) : xs.foldl min a = a ∨ xs.foldl min a ∈ xs := by
  induction xs generalizing a with
  | nil => exact Or.inl rfl
  | cons y ys ih =>
    rcases ih (min a y) with h | h
    · rcases min_choice a y with hm | hm
      · exact Or.inl (by rw [List.foldl_cons, h, hm])
      · exact Or.inr (by rw [List.foldl_cons, h, hm]; exact List.mem_cons_self y ys)
    · exact Or.inr (List.mem_cons_of_mem y h)

theorem foldl_max_mem (xs : List ℚ) (a : ℚ) : xs.foldl max a = a ∨ xs.foldl max a ∈ xs := by
  induction xs generalizing a with
  | nil => exact Or.inl rfl
  | cons y ys ih =>
    rcases ih (max a y) with h | h
    · rcases max_choice a y with hm | hm
      · exact Or.inl (by rw [List.foldl_cons, h, hm])
      · exact Or.inr (by rw [List.foldl_cons, h, hm]; exact List.mem_cons_self y ys)
    · exact Or.inr (List.mem_cons_of_mem y h)

/-- Exceptions raised by the modelled Python code on the loadshape path. -/
inductive GenError
  | tooFewPoints
  | zeroStep
  | emptyReduce
  | emptyPercentile
  | emptyPool
  | broadcastMismatch
  | keyMissing (k : Str)
deriving DecidableEq

/-- Elementwise model of `np.interp(x=x, xp=(lo, hi), fp=(0, 1))`, following
numpy's `arr_interp` branch order for a two-point `xp`: right fill for `x`
above the last knot, left fill below the first knot, the last-knot branch when
the binary search lands on index `lenxp - 1` (which covers both `x = hi` and the
degenerate `lo = hi` case, returning `fp[-1] = 1` without computing a slope, so
no division by zero occurs), the exact-knot branch for `x = lo`, and the slope
branch otherwise. -/
def np_interp2 (lo hi x : ℚ) : ℚ :=
  if hi < x then 1
  else if x < lo then 0
  else if hi ≤ x then 1
  else if x = lo then 0
  else (x - lo) / (hi - lo)

/-- Line 106 of `dss_loadshape.py`:
`np.interp(x=self.values, xp=(self.values.min(), self.values.max()), fp=(0, 1))`.
The error case models the `ValueError` numpy raises for a min/max reduction over
a zero-size array. -/
def normalize_values (values : List ℚ) : Except GenError (List ℚ) :=
  match np_min values, np_max values with
  | some lo, some hi => .ok (values.map (np_interp2 lo hi))
  | _, _ => .error .emptyReduce

/-- Evaluation of `scipy.interpolate.interp1d(x=np.arange(len(values)), y=values,
kind="linear", fill_value="extrapolate")` at position `t`: piecewise-linear
interpolation on the integer knots `0, …, n-1`, with the first/last segment
extended linearly for out-of-range positions.  The caller enforces `n ≥ 2`
(`interp1d` itself raises below two points); for `n ≥ 2` the default of the
indexed reads is never used. -/
def interp1d_eval (values : List ℚ) (t : ℚ) : ℚ :=
  values.getD (min (qfloor t).toNat (values.length - 2)) 0 +
    (t - ((min (qfloor t).toNat (values.length - 2) : ℕ) : ℚ)) *
      (values.getD (min (qfloor t).toNat (values.length - 2) + 1) 0 -
        values.getD (min (qfloor t).toNat (values.length - 2)) 0)

/-- Model of `np.arange(start, stop, step)` for `step > 0`: the values
`start + i * step` for `i < ⌈(stop - start) / step⌉`. -/
def np_arange (start stop step : ℚ) : List ℚ :=
  (List.range (qceil ((stop - start) / step)).toNat).map
    (fun i : ℕ => start + (i : ℚ) * step)

/-- Lines 96-103 of `dss_loadshape.py`: build the linear interpolator over
`values` and evaluate it at
`np.arange(start=0, stop=len(values), step=(len(values) / n_interpolate))`.
`tooFewPoints` models the `ValueError` raised by `interp1d` for arrays with
fewer than two entries; `zeroStep` models the `ZeroDivisionError` in
`len(values) / n_interpolate` when the target length is zero. -/
def resample_values (values : List ℚ) (m : Nat) : Except GenError (List ℚ) :=
  if values.length < 2 then .error .tooFewPoints
  else if m = 0 then .error .zeroStep
  else .ok ((np_arange 0 (values.length : ℚ) ((values.length : ℚ) / (m : ℚ))).map
    (interp1d_eval values))

/-- Value computation of `LoadShape.__init__` (lines 94-106 of
`dss_loadshape.py`): copy the input, optionally resample to `n_interpolate`
points, then min-max scale into `[0, 1]` with `np.interp`. -/
def loadshape_init_values (values : List ℚ) (n_interpolate : Option Nat) :
    Except GenError (List ℚ) :=
  match n_interpolate with
  | none => normalize_values values
  | some m =>
    match resample_values values m with
    | .ok vs => normalize_values vs
    | .error e => .error e

theorem foldl_min_replicate (m : Nat) (c : ℚ) : (List.replicate m c).foldl min c = c := by
  induction m with
  | zero => rfl
  | succ m ih => simpa [List.replicate, min_self] using ih

theorem foldl_max_replicate (m : Nat) (c : ℚ) : (List.replicate m c).foldl max c = c := by
  induction m with
  | zero => rfl
  | succ m ih => simpa [List.replicate, max_self] using ih

theorem np_interp2_self (c : ℚ) : np_interp2 c c c = 1 := by
  simp [np_interp2]

/-- C3: for every constant non-empty input series (combined profile plus noise
with zero IQR and zero variance) the LoadShape value computation raises no
exception and performs no division by zero: normalization takes numpy's
last-knot branch for `min = max` and yields a constant series, every sample
equal to 1. -/
theorem constant_series_no_exception (c : ℚ) (n : Nat) (h : 1 ≤ n) :
    loadshape_init_values (List.replicate n c) none = .ok (List.replicate n 1) := by
  obtain ⟨m, rfl⟩ : ∃ m, n = m + 1 := ⟨n - 1, by omega⟩
  have hrep : List.replicate (m + 1) c = c :: List.replicate m c := rfl
  unfold loadshape_init_values normalize_values
  rw [hrep]
  simp only [np_min, np_max, foldl_min_replicate, foldl_max_replicate]
  rw [← hrep, List.map_replicate, np_interp2_self]

/-- Witness for C3 at the specification's degenerate profile `[10, 10, 10, 10]`. -/
theorem constant_series_no_exception_witness :
    loadshape_init_values [10, 10, 10, 10] none = .ok [1, 1, 1, 1] :=
  constant_series_no_exception 10 4 (by norm_num)

theorem np_interp2_mem_unit (lo hi x : ℚ) :
    0 ≤ np_interp2 lo hi x ∧ np_interp2 lo hi x ≤ 1 := by
  unfold np_interp2
  split
  · exact ⟨zero_le_one, le_refl 1⟩
  next h1 =>
  split
  · exact ⟨le_refl 0, zero_le_one⟩
  next h2 =>
  split
  · exact ⟨zero_le_one, le_refl 1⟩
  next h3 =>
  split
  · exact ⟨le_refl 0, zero_le_one⟩
  next h4 =>
  have hxlo : lo < x := lt_of_le_of_ne (not_lt.mp h2) (fun he => h4 he.symm)
  have hxhi : x < hi := not_le.mp h3
  constructor
  · exact div_nonneg (by linarith) (by linarith)
  · rw [div_le_one (by linarith)]
    linarith

/-- C4: for every non-constant input series, min-max normalization succeeds,
every resulting sample lies in `[0, 1]`, at least one sample equals exactly 0
and at least one equals exactly 1. -/
theorem normalization_bounds (values : List ℚ)
    (h : ∃ a ∈ values, ∃ b ∈ values, a ≠ b) :
    ∃ out, normalize_values values = .ok out ∧
      (∀ y ∈ out, 0 ≤ y ∧ y ≤ 1) ∧ (0 : ℚ) ∈ out ∧ (1 : ℚ) ∈ out := by
  obtain ⟨a, ha, b, hb, hab⟩ := h
  obtain ⟨v, vs, rfl⟩ : ∃ v vs, values = v :: vs := by
    cases values with
    | nil => cases ha
    | cons v vs => exact ⟨v, vs, rfl⟩
  set lo := vs.foldl min v with hlo_def
  set hi := vs.foldl max v with hhi_def
  have hlo_le : ∀ x ∈ v :: vs, lo ≤ x := by
    intro x hx
    rcases List.mem_cons.mp hx with hx | hx
    · subst hx; exact foldl_min_le vs x
    · exact foldl_min_le_mem vs v x hx
  have hle_hi : ∀ x ∈ v :: vs, x ≤ hi := by
    intro x hx
    rcases List.mem_cons.mp hx with hx | hx
    · subst hx; exact le_foldl_max vs x
    · exact mem_le_foldl_max vs v x hx
  have hlo_mem : lo ∈ v :: vs := by
    rcases foldl_min_mem vs v with h | h
    · rw [hlo_def, h]; exact List.mem_cons_self v vs
    · exact List.mem_cons_of_mem v h
  have hhi_mem : hi ∈ v :: vs := by
    rcases foldl_max_mem vs v with h | h
    · rw [hhi_def, h]; exact List.mem_cons_self v vs
    · exact List.mem_cons_of_mem v h
  have hlt : lo < hi := by
    rcases lt_or_eq_of_le (le_trans (hlo_le a ha) (hle_hi a ha)) with h | h
    · exact h
    · exfalso
      apply hab
      have h1 : a = lo := le_antisymm (by rw [h]; exact hle_hi a ha) (hlo_le a ha)
      have h2 : b = lo := le_antisymm (by rw [h]; exact hle_hi b hb) (hlo_le b hb)
      rw [h1, h2]
  have hnorm : normalize_values (v :: vs) = .ok ((v :: vs).map (np_interp2 lo hi)) := rfl
  refine ⟨_, hnorm, ?_, ?_, ?_⟩
  · intro y hy
    obtain ⟨x, _, rfl⟩ := List.mem_map.mp hy
    exact np_interp2_mem_unit lo hi x
  · have : np_interp2 lo hi lo = 0 := by
      unfold np_interp2
      rw [if_neg (by linarith), if_neg (by linarith), if_neg (by linarith), if_pos rfl]
    exact this ▸ List.mem_map_of_mem (np_interp2 lo hi) hlo_mem
  · have : np_interp2 lo hi hi = 1 := by
      unfold np_interp2
      rw [if_neg (by linarith), if_neg (by linarith), if_pos (le_refl hi)]
    exact this ▸ List.mem_map_of_mem (np_interp2 lo hi) hhi_mem

/-- Witness for C4 at the non-constant series `[1, 3, 2]`. -/
theorem normalization_bounds_witness :
    ∃ out, normalize_values [1, 3, 2] = .ok out ∧
      (∀ y ∈ out, 0 ≤ y ∧ y ≤ 1) ∧ (0 : ℚ) ∈ out ∧ (1 : ℚ) ∈ out :=
  normalization_bounds [1, 3, 2] ⟨1, by norm_num, 3, by norm_num, by norm_num⟩

theorem qfloor_intCast (k : ℤ) : qfloor (k : ℚ) = k := by
  rw [qfloor_eq_floor]
  exact Int.floor_intCast k

theorem qceil_natCast (n : ℕ) : qceil (n : ℚ) = n := by
  unfold qceil
  have h : -((n : ℚ)) = ((-(n : ℤ) : ℤ) : ℚ) := by push_cast; ring
  rw [h, qfloor_intCast]
  ring

theorem interp1d_eval_knot (values : List ℚ) (i : Nat)
    (h2 : 2 ≤ values.length) (hi : i < values.length) :
    interp1d_eval values (i : ℚ) = values.getD i 0 := by
  unfold interp1d_eval
  rw [qfloor_natCast, Int.toNat_natCast]
  rcases Nat.lt_or_ge i (values.length - 1) with hcase | hcase
  · rw [Nat.min_eq_left (by omega)]
    simp
  · have hieq : i = values.length - 1 := by omega
    rw [Nat.min_eq_right (by omega)]
    have hsub : ((i : ℚ)) - ((values.length - 2 : ℕ) : ℚ) = 1 := by
      rw [hieq]
      rw [Nat.cast_sub (by omega), Nat.cast_sub (by omega)]
      ring
    rw [hsub]
    have hidx : values.length - 2 + 1 = i := by omega
    rw [hidx]
    ring_nf

/-- C7 (amended): resampling is an identity at equal lengths for every series
with at least two samples: for `N ≥ 2`, resampling a series of length `N` to
target length `N` evaluates the interpolator exactly at the original knots and
returns the original series unchanged (exactly, in the rational model). -/
theorem resample_identity (values : List ℚ) (h : 2 ≤ values.length) :
    resample_values values values.length = .ok values := by
  have hn0 : ((values.length : ℚ)) ≠ 0 := Nat.cast_ne_zero.mpr (by omega)
  have harange : np_arange 0 (values.length : ℚ)
      ((values.length : ℚ) / (values.length : ℚ)) =
      (List.range values.length).map (Nat.cast : ℕ → ℚ) := by
    rw [div_self hn0]
    unfold np_arange
    rw [sub_zero, div_one, qceil_natCast, Int.toNat_natCast]
    exact List.map_congr_left (fun a _ => by ring)
  unfold resample_values
  rw [if_neg (by omega), if_neg (by omega), harange]
  congr 1
  apply List.ext_getElem
  · simp
  · intro i h1 hmem
    simp only [List.getElem_map, List.getElem_range]
    rw [interp1d_eval_knot values i h hmem]
    exact List.getD_eq_getElem values 0 hmem

/-- C7 counterexample: for the length-1 series `[10]`, resampling to target
length 1 does not return the series — `interp1d` requires at least two data
points, so the construction raises instead. -/
theorem resample_identity_counterexample :
    resample_values [10] 1 = .error .tooFewPoints := rfl

/-- Witness for the amended C7 at the series `[10, 20, 30]` and target length 3. -/
theorem resample_identity_witness :
    resample_values [10, 20, 30] 3 = .ok [10, 20, 30] :=
  resample_identity [10, 20, 30] (by norm_num)

/-! ## Frame effect of `LoadShape.__init__` -/

/-- Buffer-threading model of `ndarray.copy()`: allocates a fresh array with the
same samples and only reads its receiver, so the pair carries the fresh copy
and the receiver's buffer unchanged. -/
def ndarray_copy (buf : List ℚ) : List ℚ × List ℚ := (buf, buf)

/-- Lines 96-103 of `dss_loadshape.py` with the caller's array threaded through:
`scipy.interpolate.interp1d` reads `x=np.arange(len(values))` and `y=values` and
its evaluation allocates a fresh result array; neither it nor `np.arange` writes
to `values`. -/
def resample_values_reading (buf : List ℚ) (m : Nat) :
    Except GenError (List ℚ) × List ℚ := (resample_values buf m, buf)

/-- Lines 94-106 of `dss_loadshape.py` with the caller's `values` buffer threaded
explicitly through every primitive that receives it (line 94 `values.copy()`,
lines 96-103 `interp1d(..., y=values)` over `np.arange(len(values), …)`, line
106 `np.interp` over the freshly assigned `self.values`).  The second component
is the caller's array as it stands after `__init__` returns. -/
def loadshape_init_values_buffer (values : List ℚ) (n_interpolate : Option Nat) :
    Except GenError (List ℚ) × List ℚ :=
  let c := ndarray_copy values
  match n_interpolate with
  | none => (normalize_values c.1, c.2)
  | some m =>
    let r := resample_values_reading c.2 m
    match r.1 with
    | .ok vs => (normalize_values vs, r.2)
    | .error e => (.error e, r.2)

/-- C10: constructing a LoadShape never mutates the caller's input array: after
construction (including optional resampling and normalization, which operate on
fresh arrays) the caller's buffer holds exactly the samples it held before the
call, and the value computed over the threaded buffer agrees with the direct
functional model. -/
theorem loadshape_init_preserves_input (values : List ℚ) (n_interpolate : Option Nat) :
    (loadshape_init_values_buffer values n_interpolate).2 = values ∧
    (loadshape_init_values_buffer values n_interpolate).1 =
      loadshape_init_values values n_interpolate := by
  cases n_interpolate with
  | none => exact ⟨rfl, rfl⟩
  | some m =>
    cases hr : resample_values values m <;>
      simp [loadshape_init_values_buffer, loadshape_init_values, ndarray_copy,
        resample_values_reading, hr]

/-! ## `IqrRandomLoadShapePrototype.clone` and the ERCOT factory
(`loadshape_prototype.py` lines 96-135, `loadshape_factory.py` lines 76-89) -/

/-- Model of `np.mean` for a non-empty one-dimensional array. -/
def np_mean (xs : List ℚ) : ℚ := xs.sum / (xs.length : ℚ)

/-- Model of `np.percentile(xs, q)` with the default linear interpolation
method: sort ascending and take the fractional order statistic at position
`(len - 1) * q / 100`.  Assumes `xs` is non-empty; the caller models numpy's
exception on empty input. -/
def np_percentile (xs : List ℚ) (q : ℚ) : ℚ :=
  (List.insertionSort (fun a b => a ≤ b) xs).getD
      (qfloor (((xs.length - 1 : ℕ) : ℚ) * q / 100)).toNat 0 +
    (((xs.length - 1 : ℕ) : ℚ) * q / 100 -
      ((qfloor (((xs.length - 1 : ℕ) : ℚ) * q / 100)).toNat : ℚ)) *
      ((List.insertionSort (fun a b => a ≤ b) xs).getD
          ((qfloor (((xs.length - 1 : ℕ) : ℚ) * q / 100)).toNat + 1) 0 -
        (List.insertionSort (fun a b => a ≤ b) xs).getD
          (qfloor (((xs.length - 1 : ℕ) : ℚ) * q / 100)).toNat 0)

/-- `scipy.stats.iqr(x)`: 75th minus 25th percentile.  The error models the
exception numpy raises when a percentile is taken of a zero-size array (a
length-0 profile reaches it, since `np.mean` of an empty array only warns). -/
def scipy_iqr (xs : List ℚ) : Except GenError ℚ :=
  if xs.isEmpty then .error .emptyPercentile
  else .ok (np_percentile xs 75 - np_percentile xs 25)

/-- The `make_values` lambda of `make_ercot_iqr_random_loadshapes`
(lines 76-78): `scipy.stats.norm.rvs(loc=0.0, scale=(0.1 * iqr), size=n_timestep,
random_state=random_state)`, which returns `loc + scale * z_i` over the
standard-normal draws `z_i` of the seeded `RandomState`; the draws are
abstracted by `normStream : seed ↦ count ↦ draws`. -/
def make_values_ercot (normStream : Nat → Nat → List ℚ) (iqr : ℚ) (n_timestep : Nat)
    (random_state : Nat) : List ℚ :=
  (normStream random_state n_timestep).map (fun z => 0 + 1 / 10 * iqr * z)

/-- `loadshape_prototype.IqrRandomLoadShapePrototype`, restricted to the state
that `clone` reads to compute values.  `profiles_df` models the load-profile
data frame as an association list from column name to column samples;
`recurrence` and `hour_interval` only enter the OpenDSS command strings and are
elided. -/
structure IqrRandomLoadShapePrototype where
  make_values : ℚ → Nat → Nat → List ℚ
  phase_profile_mapping : Phase → List Str
  profiles_df : List (Str × List ℚ)
  n_interpolate : Option Nat

/-- `self._profiles_df.loc[:, profile_name]`: exact-key column lookup; the error
models the pandas `KeyError` for an absent column. -/
def df_lookup (df : List (Str × List ℚ)) (k : Str) : Except GenError (List ℚ) :=
  match df.find? (fun p => p.1 == k) with
  | some p => .ok p.2
  | none => .error (.keyMissing k)

/-- `IqrRandomLoadShapePrototype.clone` (lines 96-135 of
`loadshape_prototype.py`): select a profile name for the load's phase with a
generator freshly seeded by the load's random state, look the profile column
up, compute the IQR of the zero-centered profile, add the scaled random values
(`profile + random_values`; the factory's `make_values` always returns exactly
`len(profile)` values, so the equal-length broadcast is the only case
exercised), and run the LoadShape value computation.  The result models the
clone's `(profile_name, loadshape.values)`; the OpenDSS command strings are
engine-facing and elided. -/
def IqrRandomLoadShapePrototype.clone (p : IqrRandomLoadShapePrototype)
    (bitStream : Nat → Nat → Nat) (load : Load) (random_state : Nat) :
    Except GenError (Str × List ℚ) :=
  match select_profile_name bitStream p.phase_profile_mapping load random_state with
  | none => .error .emptyPool
  | some profile_name =>
    match df_lookup p.profiles_df profile_name with
    | .error e => .error e
    | .ok profile =>
      match scipy_iqr (profile.map (fun x => x - np_mean profile)) with
      | .error e => .error e
      | .ok iqr =>
        if (p.make_values iqr profile.length random_state).length = profile.length then
          match loadshape_init_values
              (List.zipWith (fun a b => a + b) profile
                (p.make_values iqr profile.length random_state))
              p.n_interpolate with
          | .ok vs => .ok (profile_name, vs)
          | .error e => .error e
        else .error .broadcastMismatch

/-- The prototype instance built by `make_ercot_iqr_random_loadshapes`
(lines 80-83): ERCOT pools, IQR-scaled normal noise, no resampling. -/
def ercot_prototype (normStream : Nat → Nat → List ℚ)
    (profiles_df : List (Str × List ℚ)) : IqrRandomLoadShapePrototype :=
  { make_values := make_values_ercot normStream
    phase_profile_mapping := phase_profile_mapping
    profiles_df := profiles_df
    n_interpolate := none }

theorem qfloor_zero : qfloor 0 = 0 := by
  rw [qfloor_eq_floor]
  simp

theorem np_percentile_singleton (x q : ℚ) : np_percentile [x] q = x := by
  unfold np_percentile
  simp [List.insertionSort, List.orderedInsert, qfloor_zero]

theorem scipy_iqr_singleton (y : ℚ) : scipy_iqr [y] = .ok 0 := by
  simp [scipy_iqr, np_percentile_singleton]

theorem np_mean_singleton (c : ℚ) : np_mean [c] = c := by
  simp [np_mean]

theorem normalize_values_singleton (c : ℚ) : normalize_values [c] = .ok [1] := by
  have h1 : np_min [c] = some c := rfl
  have h2 : np_max [c] = some c := rfl
  unfold normalize_values
  rw [h1, h2]
  simp [np_interp2_self]

/-- C8 (amended): the Synthetic Series Generator does not reject profiles of
length ≤ 1 with a ConfigurationError (no such error exists in the code).  With
no resampling configured — as in `make_ercot_iqr_random_loadshapes` — a
length-1 profile is accepted: `clone` succeeds and yields a constant
single-sample Loadshape with value 1.  Only a length-0 profile makes the call
fail, and with the numeric error raised under `scipy.stats.iqr`, not a
ConfigurationError. -/
theorem short_profile_amended (normStream : Nat → Nat → List ℚ)
    (profiles_df : List (Str × List ℚ)) (bitStream : Nat → Nat → Nat)
    (load : Load) (random_state : Nat) (nm : Str) (c : ℚ)
    (hsel : select_profile_name bitStream phase_profile_mapping load random_state =
      some nm)
    (hlen : (normStream random_state 1).length = 1) :
    (df_lookup profiles_df nm = .ok [c] →
      (ercot_prototype normStream profiles_df).clone bitStream load random_state =
        .ok (nm, [1])) ∧
    (df_lookup profiles_df nm = .ok [] →
      ∃ e, (ercot_prototype normStream profiles_df).clone bitStream load random_state =
        .error e) := by
  obtain ⟨z, hz⟩ := List.length_eq_one.mp hlen
  constructor
  · intro hdf
    have hmap : List.map (fun x => x - np_mean [c]) [c] = [0] := by
      simp [np_mean_singleton]
    have hmk : make_values_ercot normStream 0 1 random_state = [0] := by
      unfold make_values_ercot
      rw [hz]
      norm_num
    have hinit : loadshape_init_values [c] none = .ok [1] :=
      normalize_values_singleton c
    unfold IqrRandomLoadShapePrototype.clone
    simp only [ercot_prototype, hsel, hdf, List.length_singleton, hmap,
      scipy_iqr_singleton, hmk, List.zipWith_cons_cons, List.zipWith_nil_left,
      add_zero, hinit]
    rw [if_pos trivial]
  · intro hdf
    refine ⟨.emptyPercentile, ?_⟩
    unfold IqrRandomLoadShapePrototype.clone
    simp only [ercot_prototype, hsel, hdf]
    rfl

/-- C8 counterexample: the claim requires rejection of every profile of length
at most 1, but for the one-sample profile `[10]` the clone call succeeds and
produces a Loadshape with values `[1]` rather than raising. -/
theorem short_profile_not_rejected :
    (ercot_prototype (fun _ n => List.replicate n 37)
        [("BUSLOLF_SCENT".toList, [10])]).clone (fun _ _ => 0)
        ⟨⟨"load".toList, "a".toList⟩, .A⟩ 5 =
      .ok ("BUSLOLF_SCENT".toList, [1]) := by
  with_unfolding_all rfl

/-- Witness for the amended C8 at a concrete generator, pools and profile table. -/
theorem short_profile_amended_witness :
    (df_lookup [("BUSLOLF_SCENT".toList, ([10] : List ℚ))] ("BUSLOLF_SCENT".toList) =
        .ok [10] →
      (ercot_prototype (fun _ n => List.replicate n 37)
          [("BUSLOLF_SCENT".toList, [10])]).clone (fun _ _ => 0)
          ⟨⟨"load".toList, "b".toList⟩, .A⟩ 5 =
        .ok ("BUSLOLF_SCENT".toList, [1])) ∧
    (df_lookup [("BUSLOLF_SCENT".toList, ([10] : List ℚ))] ("BUSLOLF_SCENT".toList) =
        .ok [] →
      ∃ e, (ercot_prototype (fun _ n => List.replicate n 37)
          [("BUSLOLF_SCENT".toList, [10])]).clone (fun _ _ => 0)
          ⟨⟨"load".toList, "b".toList⟩, .A⟩ 5 = .error e) :=
  short_profile_amended (fun _ n => List.replicate n 37)
    [("BUSLOLF_SCENT".toList, [10])] (fun _ _ => 0)
    ⟨⟨"load".toList, "b".toList⟩, .A⟩ 5 ("BUSLOLF_SCENT".toList) 10
    (by with_unfolding_all rfl) rfl

/-! ## Measurement Aggregator (`data_factory.py`, `dss_monitor.py`)

The delimiter that joins and splits aggregated column names is
`simulator.parameters.delimiter`, defined in the external `simulator` module that
is not among the analysed sources.  Modelled from the spec: column names are
formed by "joining entity identifier and channel name with a delimiter" and the
ChannelMap re-derives entity identity by "split on the same delimiter"; the
delimiter is modelled as a single character `d`, assumed (as hypotheses where
needed) not to occur inside the joined parts. -/

/-- `dss_monitor.MonitorData`, with the sample matrix modelled by its columns:
`columns[i]` is the sample series of the channel named `channel_names[i]`. -/
structure MonitorData where
  channel_names : List Str
  columns : List (List ℚ)
deriving DecidableEq

/-- `dss_transformer.Transformer`, restricted to its OpenDSS name. -/
structure Transformer where
  name : Name
deriving DecidableEq

/-- Exceptions raised on the aggregation path. -/
inductive DataError
  | channelNotFound (ch : Str)
  | columnOutOfRange
  | malformedColumnName (s : Str)
deriving DecidableEq

/-- Python `list.index(x)`: index of the first occurrence; the error models the
`ValueError` raised when the value is absent. -/
def py_index : List Str → Str → Except DataError Nat
  | [], x => .error (.channelNotFound x)
  | y :: ys, x => if y = x then .ok 0 else (py_index ys x).map (fun i => i + 1)

/-- `data_md.data[:, channel_index]`: extract one channel column; the error
models the `IndexError` for an index beyond the matrix width. -/
def get_column (m : MonitorData) (i : Nat) : Except DataError (List ℚ) :=
  match m.columns.get? i with
  | some col => .ok col
  | none => .error .columnOutOfRange

/-- Python dict assignment `d[k] = v`: replaces in place when the key is present
(keeping its original position), otherwise appends at the end. -/
def dict_insert (k : Str) (v : List ℚ) : List (Str × List ℚ) → List (Str × List ℚ)
  | [] => [(k, v)]
  | p :: rest => if p.1 = k then (k, v) :: rest else p :: dict_insert k v rest

/-- Python `s.split(d)` for a one-character separator `d`. -/
def splitOnChar (d : Char) : Str → List Str
  | [] => [[]]
  | c :: rest =>
    match splitOnChar d rest with
    | [] => [[]]
    | p :: ps => if c = d then [] :: p :: ps else (c :: p) :: ps

/-- The fixed channel-name list `["V1", "V2", "V3"]` of `data_factory.py`. -/
def voltage_channels : List Str := ["V1".toList, "V2".toList, "V3".toList]

/-- Inner loop of `make_load_voltage_magnitude_data` (lines 109-112): for each
requested channel name, find its index in the monitor's channel names, slice
that column and bind it to `f"{load.name.object}{delimiter}{channel_name}"` in
the data dict. -/
def insert_load_channels (d : Char) (load : Load) (m : MonitorData) :
    List Str → List (Str × List ℚ) → Except DataError (List (Str × List ℚ))
  | [], data => .ok data
  | ch :: rest, data =>
    match py_index m.channel_names ch with
    | .error e => .error e
    | .ok i =>
      match get_column m i with
      | .error e => .error e
      | .ok col =>
        insert_load_channels d load m rest
          (dict_insert (load.name.object ++ d :: ch) col data)

/-- Outer loop of `make_load_voltage_magnitude_data` (lines 103-112): process
`zip(loads, monitors)` in order, requesting
`["V1", "V2", "V3"][:load.meter_count]` per load. -/
def build_load_data (d : Char) :
    List (Load × MonitorData) → List (Str × List ℚ) →
    Except DataError (List (Str × List ℚ))
  | [], data => .ok data
  | (load, m) :: rest, data =>
    match insert_load_channels d load m (voltage_channels.take load.meter_count) data with
    | .error e => .error e
    | .ok data2 => build_load_data d rest data2

/-- `channel_map[load_name].append(i)` together with the
`if load_name not in channel_map` guard: append `i` to the key's list,
inserting the key at the end on first sight. -/
def map_append (k : Str) (i : Nat) : List (Str × List Nat) → List (Str × List Nat)
  | [] => [(k, [i])]
  | p :: rest => if p.1 = k then (p.1, p.2 ++ [i]) :: rest else p :: map_append k i rest

/-- ChannelMap reconstruction loop of `make_load_voltage_magnitude_data`
(lines 116-125): enumerate the table's column names, split each on the
delimiter into exactly `(load_name, _)` — any other arity is the `ValueError`
of the tuple unpacking — and append the column index to that load's list. -/
def build_channel_map (d : Char) :
    Nat → List (Str × List Nat) → List Str → Except DataError (List (Str × List Nat))
  | _, cmap, [] => .ok cmap
  | i, cmap, nm :: rest =>
    match splitOnChar d nm with
    | [load_name, _] => build_channel_map d (i + 1) (map_append load_name i cmap) rest
    | _ => .error (.malformedColumnName nm)

/-- `make_load_voltage_magnitude_data` (lines 76-127 of `data_factory.py`):
build the wide table, then reconstruct the ChannelMap from its column names. -/
def make_load_voltage_magnitude_data (d : Char) (loads : List Load)
    (monitors : List MonitorData) :
    Except DataError (List (Str × List ℚ) × List (Str × List Nat)) :=
  match build_load_data d (loads.zip monitors) [] with
  | .error e => .error e
  | .ok data =>
    match build_channel_map d 0 [] (data.map Prod.fst) with
    | .error e => .error e
    | .ok cmap => .ok (data, cmap)

/-- Inner loop of `make_transformer_voltage_magnitude_data` (lines 60-68): per
channel name, look the channel up in both monitors (both lookups precede the
assignments), then slice and bind the primary column and the secondary column
under `f"{t.name.object}{delimiter}primary{delimiter}{ch}"` and the matching
secondary name. -/
def insert_transformer_channels (d : Char) (t : Transformer) (mp ms : MonitorData) :
    List Str → List (Str × List ℚ) → Except DataError (List (Str × List ℚ))
  | [], data => .ok data
  | ch :: rest, data =>
    match py_index mp.channel_names ch with
    | .error e => .error e
    | .ok ip =>
      match py_index ms.channel_names ch with
      | .error e => .error e
      | .ok isec =>
        match get_column mp ip with
        | .error e => .error e
        | .ok colp =>
          match get_column ms isec with
          | .error e => .error e
          | .ok cols =>
            insert_transformer_channels d t mp ms rest
              (dict_insert (t.name.object ++ d :: ("secondary".toList ++ d :: ch)) cols
                (dict_insert (t.name.object ++ d :: ("primary".toList ++ d :: ch))
                  colp data))

/-- Outer loop of `make_transformer_voltage_magnitude_data` (lines 53-68) over
`zip(transformers, monitors_primary, monitors_secondary)`. -/
def build_transformer_data (d : Char) :
    List (Transformer × MonitorData × MonitorData) → List (Str × List ℚ) →
    Except DataError (List (Str × List ℚ))
  | [], data => .ok data
  | (t, mp, ms) :: rest, data =>
    match insert_transformer_channels d t mp ms voltage_channels data with
    | .error e => .error e
    | .ok data2 => build_transformer_data d rest data2

/-- `make_transformer_voltage_magnitude_data` (lines 25-72 of
`data_factory.py`). -/
def make_transformer_voltage_magnitude_data (d : Char)
    (monitors_primary monitors_secondary : List MonitorData)
    (transformers : List Transformer) : Except DataError (List (Str × List ℚ)) :=
  build_transformer_data d
    (transformers.zip (monitors_primary.zip monitors_secondary)) []

/-- The column names a single load contributes, in insertion order. -/
def load_column_names (d : Char) (load : Load) : List Str :=
  (voltage_channels.take load.meter_count).map (fun ch => load.name.object ++ d :: ch)

/-- The `(side, channel)` suffixes of a transformer's column names, in insertion
order: per channel, primary then secondary. -/
def transformer_suffixes (d : Char) : List Str :=
  voltage_channels.flatMap (fun ch =>
    ["primary".toList ++ d :: ch, "secondary".toList ++ d :: ch])

/-- The column names a single transformer contributes, in insertion order. -/
def transformer_column_names (d : Char) (t : Transformer) : List Str :=
  (transformer_suffixes d).map (fun s => t.name.object ++ d :: s)

/-- The ChannelMap the reconstruction loop is expected to produce: one entry per
load in input order, holding the consecutive column indices of that load's
columns. -/
def expected_channel_map : Nat → List Load → List (Str × List Nat)
  | _, [] => []
  | i, load :: rest =>
    (load.name.object, List.range' i load.meter_count) ::
      expected_channel_map (i + load.meter_count) rest

theorem py_index_ok_of_mem (xs : List Str) (x : Str) (h : x ∈ xs) :
    ∃ i, py_index xs x = .ok i ∧ i < xs.length := by
  induction xs with
  | nil => cases h
  | cons y ys ih =>
    by_cases hy : y = x
    · exact ⟨0, by simp [py_index, hy], by simp⟩
    · have hx : x ∈ ys := by
        rcases List.mem_cons.mp h with h1 | h1
        · exact absurd h1.symm hy
        · exact h1
      obtain ⟨i, hi, hlt⟩ := ih hx
      refine ⟨i + 1, by simp [py_index, hy, hi, Except.map], ?_⟩
      simp only [List.length_cons]
      omega

theorem py_index_mem_of_ok (xs : List Str) (x : Str) (i : Nat)
    (h : py_index xs x = .ok i) : x ∈ xs := by
  induction xs generalizing i with
  | nil => simp [py_index] at h
  | cons y ys ih =>
    by_cases hy : y = x
    · rw [← hy]; exact List.mem_cons_self y ys
    · simp only [py_index, if_neg hy] at h
      cases hpe : py_index ys x with
      | error e => rw [hpe] at h; simp [Except.map] at h
      | ok j => exact List.mem_cons_of_mem _ (ih j hpe)

theorem get_column_ok (m : MonitorData) (i : Nat) (h : i < m.columns.length) :
    ∃ col, get_column m i = .ok col := by
  refine ⟨m.columns.get ⟨i, h⟩, ?_⟩
  unfold get_column
  rw [List.get?_eq_get h]

theorem dict_insert_fresh (k : Str) (v : List ℚ) (data : List (Str × List ℚ))
    (h : k ∉ data.map Prod.fst) :
    dict_insert k v data = data ++ [(k, v)] := by
  induction data with
  | nil => rfl
  | cons p rest ih =>
    simp only [List.map_cons, List.mem_cons, not_or] at h
    simp only [dict_insert]
    rw [if_neg (fun he => h.1 he.symm), ih h.2, List.cons_append]

theorem splitOnChar_ne_nil (d : Char) (s : Str) : splitOnChar d s ≠ [] := by
  induction s with
  | nil => simp [splitOnChar]
  | cons c rest ih =>
    cases hsr : splitOnChar d rest with
    | nil => exact absurd hsr ih
    | cons p ps => by_cases hc : c = d <;> simp [splitOnChar, hsr, hc]

theorem splitOnChar_no_delim (d : Char) (s : Str) (h : d ∉ s) :
    splitOnChar d s = [s] := by
  induction s with
  | nil => rfl
  | cons c rest ih =>
    have hc : c ≠ d := fun he => h (he ▸ List.mem_cons_self c rest)
    have hr : d ∉ rest := fun hm => h (List.mem_cons_of_mem c hm)
    simp [splitOnChar, ih hr, hc]

theorem splitOnChar_append (d : Char) (a b : Str) (ha : d ∉ a) :
    splitOnChar d (a ++ d :: b) = a :: splitOnChar d b := by
  induction a with
  | nil =>
    simp only [List.nil_append]
    cases hsb : splitOnChar d b with
    | nil => exact absurd hsb (splitOnChar_ne_nil d b)
    | cons p ps => simp [splitOnChar, hsb]
  | cons c r ih =>
    have hc : c ≠ d := fun he => ha (he ▸ List.mem_cons_self c r)
    have hr : d ∉ r := fun hm => ha (List.mem_cons_of_mem c hm)
    rw [List.cons_append]
    cases hsr : splitOnChar d (r ++ d :: b) with
    | nil => exact absurd hsr (splitOnChar_ne_nil d _)
    | cons p ps =>
      have := ih hr
      rw [hsr] at this
      obtain ⟨rfl, rfl⟩ : p = r ∧ ps = splitOnChar d b := by
        injection this with h1 h2
        exact ⟨h1, h2⟩
      simp [splitOnChar, hsr, hc]

theorem splitOnChar_join (d : Char) (a b : Str) (ha : d ∉ a) (hb : d ∉ b) :
    splitOnChar d (a ++ d :: b) = [a, b] := by
  rw [splitOnChar_append d a b ha, splitOnChar_no_delim d b hb]

theorem append_delim_inj (d : Char) :
    ∀ a a2 b b2 : Str, d ∉ a → d ∉ a2 →
      a ++ d :: b = a2 ++ d :: b2 → a = a2 ∧ b = b2 := by
  intro a
  induction a with
  | nil =>
    intro a2 b b2 _ ha2 h
    cases a2 with
    | nil => simpa using h
    | cons c2 r2 =>
      exfalso
      simp only [List.nil_append, List.cons_append, List.cons.injEq] at h
      exact ha2 (by rw [h.1]; exact List.mem_cons_self c2 r2)
  | cons c r ih =>
    intro a2 b b2 ha ha2 h
    cases a2 with
    | nil =>
      exfalso
      simp only [List.cons_append, List.nil_append, List.cons.injEq] at h
      exact ha (by rw [← h.1]; exact List.mem_cons_self c r)
    | cons c2 r2 =>
      simp only [List.cons_append, List.cons.injEq] at h
      obtain ⟨hc, ht⟩ := h
      have hr : d ∉ r := fun hm => ha (List.mem_cons_of_mem c hm)
      have hr2 : d ∉ r2 := fun hm => ha2 (List.mem_cons_of_mem c2 hm)
      obtain ⟨h1, h2⟩ := ih r2 b b2 hr hr2 ht
      exact ⟨by rw [hc, h1], h2⟩

theorem nodup_keyed_flatMap {α : Type} (d : Char) (l : List α) (f : α → Str)
    (g : α → List Str)
    (hf : (l.map f).Nodup) (hdf : ∀ a ∈ l, d ∉ f a) (hg : ∀ a ∈ l, (g a).Nodup) :
    (l.flatMap (fun a => (g a).map (fun s => f a ++ d :: s))).Nodup := by
  induction l with
  | nil => simp
  | cons x xs ih =>
    rw [List.flatMap_cons, List.nodup_append]
    rw [List.map_cons, List.nodup_cons] at hf
    refine ⟨?_, ?_, ?_⟩
    · refine List.Nodup.map ?_ (hg x (List.mem_cons_self x xs))
      intro s1 s2 hs
      have h2 := List.append_cancel_left hs
      injection h2
    · exact ih hf.2 (fun a ha => hdf a (List.mem_cons_of_mem x ha))
        (fun a ha => hg a (List.mem_cons_of_mem x ha))
    · intro k hk1 hk2
      obtain ⟨s1, hs1, rfl⟩ := List.mem_map.mp hk1
      obtain ⟨a, haxs, hk⟩ := List.mem_flatMap.mp hk2
      obtain ⟨s2, hs2, he⟩ := List.mem_map.mp hk
      have hinj := append_delim_inj d (f x) (f a) s1 s2
        (hdf x (List.mem_cons_self x xs)) (hdf a (List.mem_cons_of_mem x haxs)) he.symm
      exact hf.1 (by rw [hinj.1]; exact List.mem_map_of_mem f haxs)

theorem map_append_fresh (k : Str) (i : Nat) (cmap : List (Str × List Nat))
    (h : k ∉ cmap.map Prod.fst) : map_append k i cmap = cmap ++ [(k, [i])] := by
  induction cmap with
  | nil => rfl
  | cons p rest ih =>
    simp only [List.map_cons, List.mem_cons, not_or] at h
    simp only [map_append]
    rw [if_neg (fun he => h.1 he.symm), ih h.2, List.cons_append]

theorem map_append_last (k : Str) (i : Nat) (cmap : List (Str × List Nat))
    (is : List Nat) (h : k ∉ cmap.map Prod.fst) :
    map_append k i (cmap ++ [(k, is)]) = cmap ++ [(k, is ++ [i])] := by
  induction cmap with
  | nil => simp [map_append]
  | cons p rest ih =>
    simp only [List.map_cons, List.mem_cons, not_or] at h
    simp only [List.cons_append, map_append, List.append_eq]
    rw [if_neg (fun he => h.1 he.symm), ih h.2]

theorem load_column_names_def (d : Char) (load : Load) :
    load_column_names d load =
      (voltage_channels.take load.meter_count).map
        (fun ch => load.name.object ++ d :: ch) := rfl

theorem load_column_names_length (d : Char) (load : Load) :
    (load_column_names d load).length = load.meter_count := by
  cases hp : load.phase <;>
    simp [load_column_names, Load.meter_count, meter_counts, hp, voltage_channels]

theorem meter_count_pos (load : Load) : 1 ≤ load.meter_count := by
  cases hp : load.phase <;> simp [Load.meter_count, meter_counts, hp]

theorem insert_load_channels_keys (d : Char) (load : Load) (m : MonitorData) :
    ∀ (chl : List Str) (data : List (Str × List ℚ)),
      (∀ ch ∈ chl, ch ∈ m.channel_names) →
      m.channel_names.length ≤ m.columns.length →
      (∀ ch ∈ chl, (load.name.object ++ d :: ch) ∉ data.map Prod.fst) →
      chl.Nodup →
      ∃ data2, insert_load_channels d load m chl data = .ok data2 ∧
        data2.map Prod.fst =
          data.map Prod.fst ++ chl.map (fun ch => load.name.object ++ d :: ch) := by
  intro chl
  induction chl with
  | nil => intro data _ _ _ _; exact ⟨data, rfl, by simp⟩
  | cons ch rest ih =>
    intro data hpres hwf hfresh hnd
    obtain ⟨i, hi, hlt⟩ := py_index_ok_of_mem m.channel_names ch
      (hpres ch (List.mem_cons_self ch rest))
    obtain ⟨col, hcol⟩ := get_column_ok m i (lt_of_lt_of_le hlt hwf)
    have hkey : (load.name.object ++ d :: ch) ∉ data.map Prod.fst :=
      hfresh ch (List.mem_cons_self ch rest)
    have hins := dict_insert_fresh (load.name.object ++ d :: ch) col data hkey
    rw [List.nodup_cons] at hnd
    have hfresh2 : ∀ ch2 ∈ rest,
        (load.name.object ++ d :: ch2) ∉
          (dict_insert (load.name.object ++ d :: ch) col data).map Prod.fst := by
      intro ch2 hch2
      rw [hins, List.map_append, List.mem_append]
      rintro (hmem | hmem)
      · exact hfresh ch2 (List.mem_cons_of_mem ch hch2) hmem
      · simp only [List.map_cons, List.map_nil, List.mem_singleton] at hmem
        have h2 := List.append_cancel_left hmem
        injection h2 with hd2 hch
        exact hnd.1 (hch ▸ hch2)
    obtain ⟨data2, hd2, hkeys⟩ := ih
      (dict_insert (load.name.object ++ d :: ch) col data)
      (fun c hc => hpres c (List.mem_cons_of_mem ch hc)) hwf hfresh2 hnd.2
    refine ⟨data2, ?_, ?_⟩
    · simp only [insert_load_channels, hi, hcol]
      exact hd2
    · rw [hkeys, hins, List.map_append]
      simp [List.append_assoc]

theorem build_load_data_keys (d : Char) :
    ∀ (pairs : List (Load × MonitorData)) (data : List (Str × List ℚ)),
      (∀ p ∈ pairs, (∀ ch ∈ voltage_channels.take p.1.meter_count,
          ch ∈ p.2.channel_names) ∧
        p.2.channel_names.length ≤ p.2.columns.length) →
      (∀ k ∈ pairs.flatMap (fun p => load_column_names d p.1),
        k ∉ data.map Prod.fst) →
      (pairs.flatMap (fun p => load_column_names d p.1)).Nodup →
      ∃ data2, build_load_data d pairs data = .ok data2 ∧
        data2.map Prod.fst =
          data.map Prod.fst ++ pairs.flatMap (fun p => load_column_names d p.1) := by
  intro pairs
  induction pairs with
  | nil => intro data _ _ _; exact ⟨data, rfl, by simp⟩
  | cons p rest ih =>
    obtain ⟨load, m⟩ := p
    intro data hmon hfresh hnd
    have hmonh := hmon (load, m) (List.mem_cons_self _ _)
    have hndch : (voltage_channels.take load.meter_count).Nodup :=
      List.Nodup.sublist (List.take_sublist _ _) (by decide)
    have hfreshh : ∀ ch ∈ voltage_channels.take load.meter_count,
        (load.name.object ++ d :: ch) ∉ data.map Prod.fst := by
      intro ch hch
      apply hfresh
      rw [List.flatMap_cons, List.mem_append]
      exact Or.inl (List.mem_map_of_mem _ hch)
    obtain ⟨data1, hd1, hkeys1⟩ := insert_load_channels_keys d load m
      (voltage_channels.take load.meter_count) data hmonh.1 hmonh.2 hfreshh hndch
    rw [List.flatMap_cons, List.nodup_append] at hnd
    have hfreshr : ∀ k ∈ rest.flatMap (fun p => load_column_names d p.1),
        k ∉ data1.map Prod.fst := by
      intro k hk
      rw [hkeys1, List.mem_append]
      rintro (hmem | hmem)
      · exact hfresh k (by rw [List.flatMap_cons, List.mem_append]; exact Or.inr hk) hmem
      · exact hnd.2.2 hmem hk
    obtain ⟨data2, hd2, hkeys2⟩ := ih data1
      (fun q hq => hmon q (List.mem_cons_of_mem _ hq)) hfreshr hnd.2.1
    refine ⟨data2, ?_, ?_⟩
    · simp only [build_load_data, hd1]
      exact hd2
    · rw [hkeys2, hkeys1, List.flatMap_cons]
      simp only [load_column_names_def]
      rw [← List.append_assoc]

theorem build_channel_map_append (d : Char) :
    ∀ (names1 names2 : List Str) (i : Nat) (cmap cmap1 : List (Str × List Nat)),
      build_channel_map d i cmap names1 = .ok cmap1 →
      build_channel_map d i cmap (names1 ++ names2) =
        build_channel_map d (i + names1.length) cmap1 names2 := by
  intro names1
  induction names1 with
  | nil =>
    intro names2 i cmap cmap1 h
    injection h with h1
    subst h1
    simp
  | cons nm rest ih =>
    intro names2 i cmap cmap1 h
    rcases hsp : splitOnChar d nm with _ | ⟨a, _ | ⟨b, _ | ⟨c, t⟩⟩⟩ <;>
      simp only [build_channel_map, hsp, List.cons_append] at h ⊢
    · cases h
    · cases h
    · rw [List.append_eq, ih names2 (i + 1) (map_append a i cmap) cmap1 h]
      congr 1
      simp only [List.length_cons]
      omega
    · cases h

theorem build_channel_map_group (d : Char) (k : Str) (hk : d ∉ k) :
    ∀ (chl : List Str) (i : Nat) (cmap : List (Str × List Nat)) (is : List Nat),
      (∀ ch ∈ chl, d ∉ ch) → k ∉ cmap.map Prod.fst →
      build_channel_map d i (cmap ++ [(k, is)])
          (chl.map (fun ch => k ++ d :: ch)) =
        .ok (cmap ++ [(k, is ++ List.range' i chl.length)]) := by
  intro chl
  induction chl with
  | nil => intro i cmap is _ _; simp [build_channel_map, List.range']
  | cons ch rest ih =>
    intro i cmap is hd hkc
    have hsp := splitOnChar_join d k ch hk (hd ch (List.mem_cons_self _ _))
    simp only [List.map_cons, build_channel_map, hsp]
    rw [map_append_last k i cmap is hkc]
    rw [ih (i + 1) cmap (is ++ [i]) (fun c hc => hd c (List.mem_cons_of_mem _ hc)) hkc]
    have hr : (is ++ [i]) ++ List.range' (i + 1) rest.length =
        is ++ List.range' i (rest.length + 1) := by
      rw [List.append_assoc, List.range'_succ]
      rfl
    rw [hr]
    rfl

theorem build_channel_map_group_start (d : Char) (k : Str) (hk : d ∉ k)
    (chl : List Str) (i : Nat) (cmap : List (Str × List Nat))
    (hne : chl ≠ []) (hd : ∀ ch ∈ chl, d ∉ ch) (hkc : k ∉ cmap.map Prod.fst) :
    build_channel_map d i cmap (chl.map (fun ch => k ++ d :: ch)) =
      .ok (cmap ++ [(k, List.range' i chl.length)]) := by
  cases chl with
  | nil => exact absurd rfl hne
  | cons ch rest =>
    have hsp := splitOnChar_join d k ch hk (hd ch (List.mem_cons_self _ _))
    simp only [List.map_cons, build_channel_map, hsp]
    rw [map_append_fresh k i cmap hkc]
    rw [build_channel_map_group d k hk rest (i + 1) cmap [i]
      (fun c hc => hd c (List.mem_cons_of_mem _ hc)) hkc]
    have hr : ([i] : List Nat) ++ List.range' (i + 1) rest.length =
        List.range' i (rest.length + 1) := by
      rw [List.range'_succ]
      rfl
    rw [hr]
    rfl

theorem build_channel_map_all (d : Char)
    (hchd : ∀ ch ∈ voltage_channels, d ∉ ch) :
    ∀ (loads : List Load) (i : Nat) (cmap : List (Str × List Nat)),
      (∀ l ∈ loads, d ∉ l.name.object) →
      (loads.map (fun l => l.name.object)).Nodup →
      (∀ l ∈ loads, l.name.object ∉ cmap.map Prod.fst) →
      build_channel_map d i cmap (loads.flatMap (load_column_names d)) =
        .ok (cmap ++ expected_channel_map i loads) := by
  intro loads
  induction loads with
  | nil => intro i cmap _ _ _; simp [build_channel_map, expected_channel_map]
  | cons load rest ih =>
    intro i cmap hobj hnd hfresh
    rw [List.flatMap_cons]
    have htake_ne : voltage_channels.take load.meter_count ≠ [] := by
      have h1 := meter_count_pos load
      have h2 : (voltage_channels.take load.meter_count).length =
          (load_column_names d load).length := by
        simp [load_column_names_def]
      rw [load_column_names_length] at h2
      intro hnil
      rw [hnil] at h2
      simp at h2
      omega
    have hdtake : ∀ ch ∈ voltage_channels.take load.meter_count, d ∉ ch :=
      fun ch hch => hchd ch (List.mem_of_mem_take hch)
    have h1 : build_channel_map d i cmap (load_column_names d load) =
        .ok (cmap ++ [(load.name.object, List.range' i load.meter_count)]) := by
      rw [load_column_names_def]
      rw [build_channel_map_group_start d load.name.object
        (hobj load (List.mem_cons_self _ _)) _ i cmap htake_ne hdtake
        (hfresh load (List.mem_cons_self _ _))]
      have h2 : (voltage_channels.take load.meter_count).length = load.meter_count := by
        have h3 : (voltage_channels.take load.meter_count).length =
            (load_column_names d load).length := by
          simp [load_column_names_def]
        rw [load_column_names_length] at h3
        exact h3
      rw [h2]
    rw [build_channel_map_append d _ _ i cmap _ h1]
    rw [load_column_names_length]
    rw [List.map_cons, List.nodup_cons] at hnd
    have hfresh2 : ∀ l ∈ rest, l.name.object ∉
        (cmap ++ [(load.name.object, List.range' i load.meter_count)]).map Prod.fst := by
      intro l hl
      rw [List.map_append, List.mem_append]
      rintro (hmem | hmem)
      · exact hfresh l (List.mem_cons_of_mem _ hl) hmem
      · simp only [List.map_cons, List.map_nil, List.mem_singleton] at hmem
        exact hnd.1 (by rw [← hmem]; exact List.mem_map_of_mem _ hl)
    rw [ih (i + load.meter_count)
      (cmap ++ [(load.name.object, List.range' i load.meter_count)])
      (fun l hl => hobj l (List.mem_cons_of_mem _ hl)) hnd.2 hfresh2]
    rw [List.append_assoc]
    rfl

theorem expected_channel_map_get (loads : List Load) :
    ∀ (i j : Nat) (hj : j < loads.length),
      ∃ s, (expected_channel_map i loads).get? j =
        some ((loads.get ⟨j, hj⟩).name.object,
          List.range' s (loads.get ⟨j, hj⟩).meter_count) := by
  induction loads with
  | nil => intro i j hj; simp at hj
  | cons load rest ih =>
    intro i j hj
    cases j with
    | zero => exact ⟨i, rfl⟩
    | succ j2 =>
      obtain ⟨s, hs⟩ := ih (i + load.meter_count) j2 (by simpa using hj)
      exact ⟨s, by simpa [expected_channel_map] using hs⟩

theorem expected_channel_map_lower (loads : List Load) :
    ∀ (i : Nat), ∀ e ∈ expected_channel_map i loads, ∀ x ∈ e.2, i ≤ x := by
  induction loads with
  | nil => intro i e he; simp [expected_channel_map] at he
  | cons load rest ih =>
    intro i e he x hx
    rw [expected_channel_map, List.mem_cons] at he
    rcases he with rfl | he
    · exact (List.mem_range'_1.mp hx).1
    · exact le_trans (Nat.le_add_right i _) (ih (i + load.meter_count) e he x hx)

theorem expected_channel_map_pairwise (loads : List Load) :
    ∀ i, List.Pairwise (fun a b => ∀ x ∈ a.2, x ∉ b.2)
      (expected_channel_map i loads) := by
  induction loads with
  | nil => intro i; simp [expected_channel_map]
  | cons load rest ih =>
    intro i
    rw [expected_channel_map]
    refine List.pairwise_cons.mpr ⟨?_, ih _⟩
    intro e he x hx hx2
    have h1 := (List.mem_range'_1.mp hx).2
    have h2 := expected_channel_map_lower rest (i + load.meter_count) e he x hx2
    omega

theorem expected_channel_map_flatten (loads : List Load) :
    ∀ i, ((expected_channel_map i loads).map Prod.snd).flatten =
      List.range' i ((loads.map Load.meter_count).sum) := by
  induction loads with
  | nil => intro i; simp [expected_channel_map]
  | cons load rest ih =>
    intro i
    simp only [expected_channel_map, List.map_cons, List.flatten_cons, ih,
      List.sum_cons]
    have h := List.range'_append i load.meter_count
      ((rest.map Load.meter_count).sum) 1
    simp only [one_mul] at h
    rw [h, Nat.add_comm ((rest.map Load.meter_count).sum) load.meter_count]

theorem flatMap_load_column_names_length (d : Char) (loads : List Load) :
    (loads.flatMap (load_column_names d)).length =
      (loads.map Load.meter_count).sum := by
  induction loads with
  | nil => rfl
  | cons load rest ih =>
    rw [List.flatMap_cons, List.length_append, ih, load_column_names_length,
      List.map_cons, List.sum_cons]

/-- C2: for every single-sided aggregation input (with a one-character delimiter
occurring in no load object name and no channel name, pairwise-distinct load
object names, and each monitor exposing the requested channels over a matrix at
least as wide as its channel-name list), the resulting ChannelMap partitions the
wide table's columns exactly: entry `j` belongs to load `j` and its index list
has length `meter_count`, the index lists of distinct entities are pairwise
disjoint, and their concatenation is exactly the full column index range of the
table. -/
theorem channel_map_partition (d : Char) (loads : List Load)
    (monitors : List MonitorData)
    (hlen : loads.length = monitors.length)
    (hobj : ∀ l ∈ loads, d ∉ l.name.object)
    (hchd : ∀ ch ∈ voltage_channels, d ∉ ch)
    (hnd : (loads.map (fun l => l.name.object)).Nodup)
    (hmon : ∀ p ∈ loads.zip monitors,
      (∀ ch ∈ voltage_channels.take p.1.meter_count, ch ∈ p.2.channel_names) ∧
      p.2.channel_names.length ≤ p.2.columns.length) :
    ∃ table cmap,
      make_load_voltage_magnitude_data d loads monitors = .ok (table, cmap) ∧
      (∀ j (hj : j < loads.length), ∃ idxs,
        cmap.get? j = some ((loads.get ⟨j, hj⟩).name.object, idxs) ∧
        idxs.length = (loads.get ⟨j, hj⟩).meter_count) ∧
      List.Pairwise (fun a b => ∀ x ∈ a.2, x ∉ b.2) cmap ∧
      (cmap.map Prod.snd).flatten = List.range table.length := by
  have hzipmap : (loads.zip monitors).map Prod.fst = loads :=
    List.map_fst_zip loads monitors (le_of_eq hlen)
  have hzipflat : (loads.zip monitors).flatMap (fun p => load_column_names d p.1) =
      loads.flatMap (load_column_names d) := by
    conv_rhs => rw [← hzipmap]
    rw [List.flatMap_map]
  have hndnames : (loads.flatMap (load_column_names d)).Nodup := by
    have h := nodup_keyed_flatMap d loads (fun l => l.name.object)
      (fun l => voltage_channels.take l.meter_count) hnd hobj
      (fun l _ => List.Nodup.sublist (List.take_sublist _ _) (by decide))
    exact h
  obtain ⟨table, htable, hkeys⟩ := build_load_data_keys d (loads.zip monitors) []
    hmon (by simp) (by rw [hzipflat]; exact hndnames)
  rw [hzipflat] at hkeys
  simp only [List.map_nil, List.nil_append] at hkeys
  have hcm : build_channel_map d 0 [] (table.map Prod.fst) =
      .ok ([] ++ expected_channel_map 0 loads) := by
    rw [hkeys]
    exact build_channel_map_all d hchd loads 0 [] hobj hnd (by simp)
  rw [List.nil_append] at hcm
  refine ⟨table, expected_channel_map 0 loads, ?_, ?_, ?_, ?_⟩
  · simp only [make_load_voltage_magnitude_data, htable, hcm]
  · intro j hj
    obtain ⟨s, hs⟩ := expected_channel_map_get loads 0 j hj
    exact ⟨List.range' s (loads.get ⟨j, hj⟩).meter_count, hs, List.length_range' _ _ _⟩
  · exact expected_channel_map_pairwise loads 0
  · rw [expected_channel_map_flatten loads 0]
    have hlen2 : table.length = (loads.map Load.meter_count).sum := by
      have h1 : (table.map Prod.fst).length = table.length := List.length_map _ _
      rw [hkeys] at h1
      rw [← h1, flatMap_load_column_names_length]
    rw [hlen2, List.range_eq_range']

/-- Witness for C2 at the specification's example: two loads with meter counts
1 and 2, monitors exposing channels `["hours", "V1", "V2", "V3"]`, and
delimiter `-`; the table has 3 columns, entity lists `[0]` and `[1, 2]`. -/
theorem channel_map_partition_witness :
    ∃ table cmap,
      make_load_voltage_magnitude_data '-'
        [⟨⟨"load".toList, "a".toList⟩, .A⟩, ⟨⟨"load".toList, "b".toList⟩, .AB⟩]
        [⟨["hours".toList, "V1".toList, "V2".toList, "V3".toList],
          [[0], [7], [8], [9]]⟩,
         ⟨["hours".toList, "V1".toList, "V2".toList, "V3".toList],
          [[0], [4], [5], [6]]⟩] = .ok (table, cmap) ∧
      (∀ j (hj : j < ([⟨⟨"load".toList, "a".toList⟩, .A⟩,
          ⟨⟨"load".toList, "b".toList⟩, .AB⟩] : List Load).length), ∃ idxs,
        cmap.get? j = some ((([⟨⟨"load".toList, "a".toList⟩, .A⟩,
            ⟨⟨"load".toList, "b".toList⟩, .AB⟩] : List Load).get ⟨j, hj⟩).name.object,
          idxs) ∧
        idxs.length = (([⟨⟨"load".toList, "a".toList⟩, .A⟩,
          ⟨⟨"load".toList, "b".toList⟩, .AB⟩] : List Load).get ⟨j, hj⟩).meter_count) ∧
      List.Pairwise (fun a b => ∀ x ∈ a.2, x ∉ b.2) cmap ∧
      (cmap.map Prod.snd).flatten = List.range table.length :=
  channel_map_partition '-'
    [⟨⟨"load".toList, "a".toList⟩, .A⟩, ⟨⟨"load".toList, "b".toList⟩, .AB⟩]
    [⟨["hours".toList, "V1".toList, "V2".toList, "V3".toList], [[0], [7], [8], [9]]⟩,
     ⟨["hours".toList, "V1".toList, "V2".toList, "V3".toList], [[0], [4], [5], [6]]⟩]
    (by decide) (by decide) (by decide) (by decide) (by decide)

theorem insert_load_channels_fails (d : Char) (load : Load) (m : MonitorData) :
    ∀ (chl : List Str) (data : List (Str × List ℚ)),
      (∃ ch ∈ chl, ch ∉ m.channel_names) →
      ∃ e, insert_load_channels d load m chl data = .error e := by
  intro chl
  induction chl with
  | nil =>
    intro data h
    obtain ⟨ch, hch, _⟩ := h
    cases hch
  | cons ch rest ih =>
    intro data h
    cases hpi : py_index m.channel_names ch with
    | error e => exact ⟨e, by simp [insert_load_channels, hpi]⟩
    | ok i =>
      cases hgc : get_column m i with
      | error e => exact ⟨e, by simp [insert_load_channels, hpi, hgc]⟩
      | ok col =>
        obtain ⟨ch2, hch2, hnm⟩ := h
        rcases List.mem_cons.mp hch2 with rfl | hch2r
        · exact absurd (py_index_mem_of_ok m.channel_names ch2 i hpi) hnm
        · obtain ⟨e, he⟩ := ih (dict_insert (load.name.object ++ d :: ch) col data)
            ⟨ch2, hch2r, hnm⟩
          exact ⟨e, by simp [insert_load_channels, hpi, hgc, he]⟩

theorem build_load_data_fails (d : Char) :
    ∀ (pairs : List (Load × MonitorData)) (data : List (Str × List ℚ)),
      (∃ p ∈ pairs, ∃ ch ∈ voltage_channels.take p.1.meter_count,
        ch ∉ p.2.channel_names) →
      ∃ e, build_load_data d pairs data = .error e := by
  intro pairs
  induction pairs with
  | nil =>
    intro data h
    obtain ⟨p, hp, _⟩ := h
    cases hp
  | cons p rest ih =>
    obtain ⟨load, m⟩ := p
    intro data h
    cases hic : insert_load_channels d load m
        (voltage_channels.take load.meter_count) data with
    | error e => exact ⟨e, by simp [build_load_data, hic]⟩
    | ok data2 =>
      obtain ⟨q, hq, hch⟩ := h
      rcases List.mem_cons.mp hq with rfl | hqr
      · obtain ⟨e, he⟩ := insert_load_channels_fails d load m
          (voltage_channels.take load.meter_count) data hch
        rw [he] at hic
        cases hic
      · obtain ⟨e, he⟩ := ih data2 ⟨q, hqr, hch⟩
        exact ⟨e, by simp [build_load_data, hic, he]⟩

/-- C6: for every single-sided aggregation input in which some entity's
requested channel name is absent from that entity's monitor channel names, the
whole aggregation call fails — the result is an error and no table, not even a
partial one, is returned. -/
theorem missing_channel_fails (d : Char) (loads : List Load)
    (monitors : List MonitorData)
    (h : ∃ p ∈ loads.zip monitors, ∃ ch ∈ voltage_channels.take p.1.meter_count,
      ch ∉ p.2.channel_names) :
    ∃ e, make_load_voltage_magnitude_data d loads monitors = .error e := by
  obtain ⟨e, he⟩ := build_load_data_fails d (loads.zip monitors) [] h
  exact ⟨e, by simp [make_load_voltage_magnitude_data, he]⟩

/-- Witness for C6: a two-meter load whose monitor omits channel `V2`. -/
theorem missing_channel_fails_witness :
    ∃ e, make_load_voltage_magnitude_data '-'
      [⟨⟨"load".toList, "a".toList⟩, .AB⟩]
      [⟨["hours".toList, "V1".toList, "V3".toList], [[0], [1], [2]]⟩] = .error e :=
  missing_channel_fails '-' [⟨⟨"load".toList, "a".toList⟩, .AB⟩]
    [⟨["hours".toList, "V1".toList, "V3".toList], [[0], [1], [2]]⟩] (by decide)

theorem transformer_suffixes_nodup (d : Char) : (transformer_suffixes d).Nodup := by
  simp [transformer_suffixes, voltage_channels]

theorem transformer_column_names_eq (d : Char) (t : Transformer) :
    transformer_column_names d t = voltage_channels.flatMap (fun ch =>
      [t.name.object ++ d :: ("primary".toList ++ d :: ch),
       t.name.object ++ d :: ("secondary".toList ++ d :: ch)]) := by
  simp [transformer_column_names, transformer_suffixes, List.map_flatMap]

theorem insert_transformer_channels_keys (d : Char) (t : Transformer)
    (mp ms : MonitorData) :
    ∀ (chl : List Str) (data : List (Str × List ℚ)),
      (∀ ch ∈ chl, ch ∈ mp.channel_names ∧ ch ∈ ms.channel_names) →
      mp.channel_names.length ≤ mp.columns.length →
      ms.channel_names.length ≤ ms.columns.length →
      (∀ k ∈ chl.flatMap (fun ch =>
          [t.name.object ++ d :: ("primary".toList ++ d :: ch),
           t.name.object ++ d :: ("secondary".toList ++ d :: ch)]),
        k ∉ data.map Prod.fst) →
      (chl.flatMap (fun ch =>
          [t.name.object ++ d :: ("primary".toList ++ d :: ch),
           t.name.object ++ d :: ("secondary".toList ++ d :: ch)])).Nodup →
      ∃ data2, insert_transformer_channels d t mp ms chl data = .ok data2 ∧
        data2.map Prod.fst = data.map Prod.fst ++
          chl.flatMap (fun ch =>
            [t.name.object ++ d :: ("primary".toList ++ d :: ch),
             t.name.object ++ d :: ("secondary".toList ++ d :: ch)]) := by
  intro chl
  induction chl with
  | nil => intro data _ _ _ _ _; exact ⟨data, rfl, by simp⟩
  | cons ch rest ih =>
    intro data hpres hwfp hwfs hfresh hnd
    have hpresh := hpres ch (List.mem_cons_self ch rest)
    obtain ⟨ip, hip, hltp⟩ := py_index_ok_of_mem mp.channel_names ch hpresh.1
    obtain ⟨isec, his, hlts⟩ := py_index_ok_of_mem ms.channel_names ch hpresh.2
    obtain ⟨colp, hcolp⟩ := get_column_ok mp ip (lt_of_lt_of_le hltp hwfp)
    obtain ⟨cols, hcols⟩ := get_column_ok ms isec (lt_of_lt_of_le hlts hwfs)
    rw [List.flatMap_cons] at hfresh hnd
    have hfpk : (t.name.object ++ d :: ("primary".toList ++ d :: ch)) ∉
        data.map Prod.fst :=
      hfresh _ (by simp)
    have hfsk : (t.name.object ++ d :: ("secondary".toList ++ d :: ch)) ∉
        data.map Prod.fst :=
      hfresh _ (by simp)
    rw [List.nodup_append] at hnd
    have hpkne : (t.name.object ++ d :: ("primary".toList ++ d :: ch)) ≠
        (t.name.object ++ d :: ("secondary".toList ++ d :: ch)) := by
      have := hnd.1
      simp only [List.nodup_cons, List.mem_singleton, List.nodup_nil] at this
      exact this.1
    have hins1 := dict_insert_fresh
      (t.name.object ++ d :: ("primary".toList ++ d :: ch)) colp data hfpk
    have hins2 : dict_insert (t.name.object ++ d :: ("secondary".toList ++ d :: ch))
        cols (dict_insert (t.name.object ++ d :: ("primary".toList ++ d :: ch))
          colp data) =
        data ++ [(t.name.object ++ d :: ("primary".toList ++ d :: ch), colp),
          (t.name.object ++ d :: ("secondary".toList ++ d :: ch), cols)] := by
      rw [hins1, dict_insert_fresh]
      · rw [List.append_assoc]
        rfl
      · rw [List.map_append, List.mem_append]
        rintro (hmem | hmem)
        · exact hfsk hmem
        · simp only [List.map_cons, List.map_nil, List.mem_singleton] at hmem
          exact hpkne hmem.symm
    have hfresh2 : ∀ k ∈ rest.flatMap (fun ch =>
        [t.name.object ++ d :: ("primary".toList ++ d :: ch),
         t.name.object ++ d :: ("secondary".toList ++ d :: ch)]),
        k ∉ (dict_insert (t.name.object ++ d :: ("secondary".toList ++ d :: ch))
          cols (dict_insert (t.name.object ++ d :: ("primary".toList ++ d :: ch))
            colp data)).map Prod.fst := by
      intro k hk
      rw [hins2, List.map_append, List.mem_append]
      rintro (hmem | hmem)
      · exact hfresh k (by simp only [List.mem_append]; exact Or.inr hk) hmem
      · simp only [List.map_cons, List.map_nil, List.mem_cons,
          List.mem_singleton] at hmem
        rcases hmem with rfl | hmem2
        · exact hnd.2.2 (by simp) hk
        · rcases hmem2 with rfl | hmem3
          · exact hnd.2.2 (by simp) hk
          · cases hmem3
    obtain ⟨data2, hd2, hkeys⟩ := ih _
      (fun c hc => hpres c (List.mem_cons_of_mem ch hc)) hwfp hwfs hfresh2 hnd.2.1
    refine ⟨data2, ?_, ?_⟩
    · simp only [insert_transformer_channels, hip, his, hcolp, hcols]
      exact hd2
    · rw [hkeys, hins2, List.map_append, List.flatMap_cons]
      simp [List.append_assoc]

theorem build_transformer_data_keys (d : Char) :
    ∀ (triples : List (Transformer × MonitorData × MonitorData))
      (data : List (Str × List ℚ)),
      (∀ p ∈ triples, (∀ ch ∈ voltage_channels,
          ch ∈ p.2.1.channel_names ∧ ch ∈ p.2.2.channel_names) ∧
        p.2.1.channel_names.length ≤ p.2.1.columns.length ∧
        p.2.2.channel_names.length ≤ p.2.2.columns.length) →
      (∀ k ∈ triples.flatMap (fun p => transformer_column_names d p.1),
        k ∉ data.map Prod.fst) →
      (triples.flatMap (fun p => transformer_column_names d p.1)).Nodup →
      ∃ data2, build_transformer_data d triples data = .ok data2 ∧
        data2.map Prod.fst = data.map Prod.fst ++
          triples.flatMap (fun p => transformer_column_names d p.1) := by
  intro triples
  induction triples with
  | nil => intro data _ _ _; exact ⟨data, rfl, by simp⟩
  | cons p rest ih =>
    obtain ⟨t, mp, ms⟩ := p
    intro data hmon hfresh hnd
    have hmonh := hmon (t, mp, ms) (List.mem_cons_self _ _)
    rw [List.flatMap_cons, List.nodup_append] at hnd
    have hfreshh : ∀ k ∈ voltage_channels.flatMap (fun ch =>
        [t.name.object ++ d :: ("primary".toList ++ d :: ch),
         t.name.object ++ d :: ("secondary".toList ++ d :: ch)]),
        k ∉ data.map Prod.fst := by
      intro k hk
      apply hfresh
      rw [List.flatMap_cons, List.mem_append]
      exact Or.inl (by rw [transformer_column_names_eq]; exact hk)
    obtain ⟨data1, hd1, hkeys1⟩ := insert_transformer_channels_keys d t mp ms
      voltage_channels data hmonh.1 hmonh.2.1 hmonh.2.2 hfreshh
      (by rw [← transformer_column_names_eq]; exact hnd.1)
    have hfreshr : ∀ k ∈ rest.flatMap (fun p => transformer_column_names d p.1),
        k ∉ data1.map Prod.fst := by
      intro k hk
      rw [hkeys1, List.mem_append]
      rintro (hmem | hmem)
      · exact hfresh k (by rw [List.flatMap_cons, List.mem_append]; exact Or.inr hk) hmem
      · exact hnd.2.2 (by rw [transformer_column_names_eq]; exact hmem) hk
    obtain ⟨data2, hd2, hkeys2⟩ := ih data1
      (fun q hq => hmon q (List.mem_cons_of_mem _ hq)) hfreshr hnd.2.1
    refine ⟨data2, ?_, ?_⟩
    · simp only [build_transformer_data, hd1]
      exact hd2
    · rw [hkeys2, hkeys1, List.flatMap_cons, transformer_column_names_eq,
        ← List.append_assoc]

theorem flatMap_transformer_column_names_length (d : Char)
    (transformers : List Transformer) :
    (transformers.flatMap (transformer_column_names d)).length =
      6 * transformers.length := by
  induction transformers with
  | nil => rfl
  | cons t rest ih =>
    rw [List.flatMap_cons, List.length_append, ih]
    have h : (transformer_column_names d t).length = 6 := rfl
    rw [h, List.length_cons]
    ring

theorem count_eq_one_of_mem_nodup {α : Type} [BEq α] [LawfulBEq α] :
    ∀ (l : List α) (a : α), l.Nodup → a ∈ l → l.count a = 1 := by
  intro l
  induction l with
  | nil => intro a _ h; cases h
  | cons x xs ih =>
    intro a hn h
    rw [List.nodup_cons] at hn
    rcases List.mem_cons.mp h with rfl | hmem
    · rw [List.count_cons_self, List.count_eq_zero.mpr hn.1]
    · have hne : a ≠ x := fun he => hn.1 (he ▸ hmem)
      rw [List.count_cons_of_ne hne]
      exact ih a hn.2 hmem

/-- C9: for every paired-sided aggregation input (with a one-character delimiter
occurring in no transformer object name and pairwise-distinct transformer
object names, both monitors of each transformer exposing all of `V1, V2, V3`
over sufficiently wide matrices), each transformer contributes exactly one
column per `(side, channel)` combination over both sides and the full channel
set — 6 columns per entity independent of any meter count — named by joining
the entity identifier, the side label and the channel name with the delimiter,
in input order. -/
theorem paired_sided_columns (d : Char)
    (monitors_primary monitors_secondary : List MonitorData)
    (transformers : List Transformer)
    (hlen1 : transformers.length = monitors_primary.length)
    (hlen2 : transformers.length = monitors_secondary.length)
    (hobj : ∀ t ∈ transformers, d ∉ t.name.object)
    (hnd : (transformers.map (fun t => t.name.object)).Nodup)
    (hmon : ∀ p ∈ transformers.zip (monitors_primary.zip monitors_secondary),
      (∀ ch ∈ voltage_channels,
        ch ∈ p.2.1.channel_names ∧ ch ∈ p.2.2.channel_names) ∧
      p.2.1.channel_names.length ≤ p.2.1.columns.length ∧
      p.2.2.channel_names.length ≤ p.2.2.columns.length) :
    ∃ table,
      make_transformer_voltage_magnitude_data d monitors_primary
        monitors_secondary transformers = .ok table ∧
      table.map Prod.fst = transformers.flatMap (transformer_column_names d) ∧
      table.length = 6 * transformers.length ∧
      ∀ t ∈ transformers, ∀ s ∈ transformer_suffixes d,
        (table.map Prod.fst).count (t.name.object ++ d :: s) = 1 := by
  have hzipmap : (transformers.zip (monitors_primary.zip monitors_secondary)).map
      Prod.fst = transformers := by
    apply List.map_fst_zip
    rw [List.length_zip]
    omega
  have hzipflat : (transformers.zip
      (monitors_primary.zip monitors_secondary)).flatMap
      (fun p => transformer_column_names d p.1) =
      transformers.flatMap (transformer_column_names d) := by
    conv_rhs => rw [← hzipmap]
    rw [List.flatMap_map]
  have hndnames : (transformers.flatMap (transformer_column_names d)).Nodup :=
    nodup_keyed_flatMap d transformers (fun t => t.name.object)
      (fun _ => transformer_suffixes d) hnd hobj
      (fun _ _ => transformer_suffixes_nodup d)
  obtain ⟨table, htable, hkeys⟩ := build_transformer_data_keys d
    (transformers.zip (monitors_primary.zip monitors_secondary)) [] hmon
    (by simp) (by rw [hzipflat]; exact hndnames)
  rw [hzipflat] at hkeys
  simp only [List.map_nil, List.nil_append] at hkeys
  refine ⟨table, htable, hkeys, ?_, ?_⟩
  · have h1 : (table.map Prod.fst).length = table.length := List.length_map _ _
    rw [hkeys, flatMap_transformer_column_names_length] at h1
    omega
  · intro t ht s hs
    rw [hkeys]
    exact count_eq_one_of_mem_nodup _ _ hndnames
      (List.mem_flatMap.mpr ⟨t, ht, List.mem_map_of_mem _ hs⟩)

/-- Witness for C9 at the specification's example: one transformer with full
channel set and primary/secondary monitor outputs; the table has exactly 6
columns, one per side and channel. -/
theorem paired_sided_columns_witness :
    ∃ table,
      make_transformer_voltage_magnitude_data '-'
        [⟨["hours".toList, "V1".toList, "V2".toList, "V3".toList],
          [[0], [1], [2], [3]]⟩]
        [⟨["hours".toList, "V1".toList, "V2".toList, "V3".toList],
          [[0], [4], [5], [6]]⟩]
        [⟨⟨"transformer".toList, "t1".toList⟩⟩] = .ok table ∧
      table.map Prod.fst =
        ([⟨⟨"transformer".toList, "t1".toList⟩⟩] : List Transformer).flatMap
          (transformer_column_names '-') ∧
      table.length =
        6 * ([⟨⟨"transformer".toList, "t1".toList⟩⟩] : List Transformer).length ∧
      ∀ t ∈ ([⟨⟨"transformer".toList, "t1".toList⟩⟩] : List Transformer),
        ∀ s ∈ transformer_suffixes '-',
        (table.map Prod.fst).count (t.name.object ++ '-' :: s) = 1 :=
  paired_sided_columns '-'
    [⟨["hours".toList, "V1".toList, "V2".toList, "V3".toList],
      [[0], [1], [2], [3]]⟩]
    [⟨["hours".toList, "V1".toList, "V2".toList, "V3".toList],
      [[0], [4], [5], [6]]⟩]
    [⟨⟨"transformer".toList, "t1".toList⟩⟩]
    (by decide) (by decide) (by decide) (by decide) (by decide)

end ArimaErcot
